import Mathlib

/-!
Verification of the bucketbird folder/object layer.

Shallow embedding of the translation-and-mutation core:
the S3-compatible flat key-value store is modelled as a set of keys
(`S3Store`), Go strings as lists of characters (`GoStr`), and the
service operations (`BucketService.ListObjects`, `DeleteObjects`,
`RenameObject`, `CopyObject`, `ZipFolder` path sanitization,
`formatByteSize`, presigning) as pure Lean functions translated from
`backend/internal/service` and `backend/internal/storage/objectstore.go`.
-/

/-- Go strings, modelled as lists of characters (Go string comparison is
byte-wise; on UTF-8 data byte order coincides with code-point order, so
code-point lists are order-faithful). -/
abbrev GoStr := List Char

/-- Model of Go `strings.Replace(s, pat, rep, 1)`: replace the first
occurrence of `pat` in `s` (for `pat = ""`, Go inserts `rep` at the
start, which the `isPrefixOf` branch reproduces). -/
def replaceFirst (s pat rep : GoStr) : GoStr :=
  if pat.isPrefixOf s then rep ++ s.drop pat.length
  else
    match s with
    | [] => []
    | c :: cs => c :: replaceFirst cs pat rep

/-- The state of one S3 bucket: the set of object keys it holds, as a
list.  Object bodies are irrelevant to the claims under verification and
are not modelled. -/
structure S3Store where
  keys : List GoStr
deriving DecidableEq

/-- Result of `ObjectStore.ListAllObjects(bucket, prefix)` on a flat
store: every key having the given prefix (the full paginated walk is
modelled separately in `ListAllObjectsPaged`; on a flat key set its
result is exactly this filter). -/
def S3Store.listAllKeys (st : S3Store) ( pre : GoStr) : List GoStr :=
  st.keys.filter (fun k => pre.isPrefixOf k)

/-- Model of `ObjectStore.CopyObject`: a server-side copy of one key.
S3 `CopyObject` fails with `NoSuchKey` when the source object does not
exist; otherwise the destination key now exists (its body is
overwritten, which is invisible in a keys-only model). -/
def S3Store.copyObject (st : S3Store) (sourceKey destinationKey : GoStr) :
    Except Unit S3Store :=
  if sourceKey ∈ st.keys then
    .ok ⟨if destinationKey ∈ st.keys then st.keys else st.keys ++ [destinationKey]⟩
  else .error ()

/-- Model of storage-level `ObjectStore.DeleteObjects`: the Go code
issues quiet batch deletes in chunks of at most 1000 keys; each chunk
removes exactly its keys, so the net effect on the key set is the
removal of every listed key.  Deleting an absent key succeeds
(quiet delete). -/
def ObjectStore.DeleteObjects (st : S3Store) (keys : List GoStr) : S3Store :=
  ⟨st.keys.filter (fun k => decide (k ∉ keys))⟩

/-- Result type of the service-level bulk delete
(`DeleteObjectsResult` in the Go source). -/
structure DeleteObjectsResult where
  deleted : List GoStr
  failed : List GoStr
deriving DecidableEq

/-- Result type of rename and copy (`OperationResult` in the Go
source): a single pass/fail boolean plus a message. -/
structure OperationResult where
  success : Bool
  message : String
deriving DecidableEq

/-- Model of `BucketService.DeleteObjects`: each folder key (trailing
slash) is expanded to every object under it plus the folder marker
itself; then one storage-level delete is issued.  Transport errors of
the store are not modelled (the store operations are total here), so
the error branches of the Go code do not arise and the result is the
success-path result. -/
def BucketService.DeleteObjects (st : S3Store) (keys : List GoStr) :
    S3Store × DeleteObjectsResult :=
  let allKeysToDelete := keys.foldl (fun acc key =>
    if ['/'].isSuffixOf key then acc ++ st.listAllKeys key ++ [key]
    else acc ++ [key]) []
  if allKeysToDelete = [] then (st, ⟨[], []⟩)
  else (ObjectStore.DeleteObjects st allKeysToDelete, ⟨keys, []⟩)

/-- The descendant-copy loop inside `BucketService.RenameObject`: copy
each listed key to its destination (source prefix replaced by the
destination prefix via `strings.Replace(..., 1)`), aborting on the
first failed copy.  Returns the store reached and whether every copy
succeeded. -/
def BucketService.copyLoop (sourceKey destinationKey : GoStr) :
    S3Store → List GoStr → S3Store × Bool
  | st, [] => (st, true)
  | st, oldKey :: rest =>
    let newKey := replaceFirst oldKey sourceKey destinationKey
    match st.copyObject oldKey newKey with
    | .error _ => (st, false)
    | .ok st1 => BucketService.copyLoop sourceKey destinationKey st1 rest

/-- Model of `BucketService.RenameObject` (copy + delete).  For a
folder source key: list everything under it, copy each object, copy the
folder marker, then delete the original via the storage-level
`ObjectStore.DeleteObjects` applied to the single source key (which is
what `store.DeleteObjects(ctx, bucketName, []string{sourceKey})`
does — `store` is a `*storage.ObjectStore`).  The Go error return is
reflected in `OperationResult.success`; messages on failure paths are
abbreviated (the Go ones interpolate the underlying error). -/
def BucketService.RenameObject (st : S3Store) (sourceKey destinationKey : GoStr) :
    S3Store × OperationResult :=
  if ['/'].isSuffixOf sourceKey then
    let objects := st.listAllKeys sourceKey
    match BucketService.copyLoop sourceKey destinationKey st objects with
    | (st1, false) => (st1, ⟨false, "failed to copy object"⟩)
    | (st1, true) =>
      match st1.copyObject sourceKey destinationKey with
      | .error _ => (st1, ⟨false, "failed to copy folder marker"⟩)
      | .ok st2 =>
        (ObjectStore.DeleteObjects st2 [sourceKey],
         ⟨true, "Object renamed successfully"⟩)
  else
    match st.copyObject sourceKey destinationKey with
    | .error _ => (st, ⟨false, "failed to copy object"⟩)
    | .ok st1 =>
      (ObjectStore.DeleteObjects st1 [sourceKey],
       ⟨true, "Object renamed successfully"⟩)

/-- Model of `BucketService.CopyObject`: one server-side copy of the
given key, whether or not it is a folder key; no expansion, no
deletion. -/
def BucketService.CopyObject (st : S3Store) (sourceKey destinationKey : GoStr) :
    S3Store × OperationResult :=
  match st.copyObject sourceKey destinationKey with
  | .error _ => (st, ⟨false, "failed to copy object"⟩)
  | .ok st1 => (st1, ⟨true, "Object copied successfully"⟩)

/-- Round to the nearest integer, ties to even: the rounding Go's
`fmt` verbs apply to the decimal rendering of a float. -/
def roundHalfEven (q : ℚ) : ℤ :=
  let f := ⌊q⌋
  if q - f < 1 / 2 then f
  else if 1 / 2 < q - f then f + 1
  else if f % 2 = 0 then f else f + 1

/-- The unit-scaling loop of `formatByteSize`: divide by 1024 while
`f >= 1024 && i < len(units)-1`.  The loop body runs at most four
times (each pass increments `i`, and the guard needs `i < 4`), so fuel
4 makes this structural recursion exact. -/
def scaleLoop : Nat → ℚ → Nat → ℚ × Nat
  | 0, f, i => (f, i)
  | fuel + 1, f, i =>
    if 1024 ≤ f ∧ i < 4 then scaleLoop fuel (f / 1024) (i + 1) else (f, i)

/-- The unit suffixes of `formatByteSize`. -/
def unitsList : List String := ["B", "KB", "MB", "GB", "TB"]

/-- Model of `formatByteSize`: repeated division by 1024 and a
`%.1f`-style rendering (one decimal digit, rounding ties to even).
The Go code computes in `float64`; every operation it performs
(conversion, division by the power of two 1024) is exact for
`|bytes| < 2^53`, where this rational model coincides with it. -/
def formatByteSize (bytes : Int) : String :=
  if bytes ≤ 0 then "0 B"
  else
    let p := scaleLoop 4 (bytes : ℚ) 0
    let n := roundHalfEven (10 * p.1)
    toString (n / 10) ++ "." ++ toString (n % 10) ++ " " ++ unitsList.getD p.2 "B"

/-- The byte count denoted by the string `formatByteSize bytes`: the
printed one-decimal value times the multiplier of the printed unit. -/
def denotedSize (bytes : Int) : ℚ :=
  if bytes ≤ 0 then 0
  else
    let p := scaleLoop 4 (bytes : ℚ) 0
    (roundHalfEven (10 * p.1) : ℚ) / 10 * 1024 ^ p.2

/-- Byte-wise (code-point-wise) lexicographic string order: the order
used by Go's `sort.Strings` and by `<` on Go strings. -/
def lexLeB : List Char → List Char → Bool
  | [], _ => true
  | _ :: _, [] => false
  | a :: as, b :: bs => if a < b then true else if a = b then lexLeB as bs else false

theorem lexLeB_total : ∀ a b : List Char, lexLeB a b = true ∨ lexLeB b a = true := by
  intro a
  induction a with
  | nil => intro b; left; rfl
  | cons x xs ih =>
    intro b
    cases b with
    | nil => right; rfl
    | cons y ys =>
      rcases lt_trichotomy x y with h | h | h
      · left; simp [lexLeB, h]
      · subst h
        rcases ih ys with h2 | h2
        · left; simp [lexLeB, h2]
        · right; simp [lexLeB, h2]
      · right; simp [lexLeB, h]

theorem lexLeB_trans :
    ∀ a b c : List Char, lexLeB a b = true → lexLeB b c = true → lexLeB a c = true := by
  intro a
  induction a with
  | nil => intro b c _ _; rfl
  | cons x xs ih =>
    intro b c hab hbc
    cases b with
    | nil => simp [lexLeB] at hab
    | cons y ys =>
      cases c with
      | nil => simp [lexLeB] at hbc
      | cons z zs =>
        simp only [lexLeB] at hab hbc ⊢
        rcases lt_trichotomy x y with hxy | hxy | hxy
        · rcases lt_trichotomy y z with hyz | hyz | hyz
          · simp [lt_trans hxy hyz]
          · subst hyz; simp [hxy]
          · rw [if_neg (asymm hyz), if_neg (hyz.ne')] at hbc
            exact absurd hbc (by simp)
        · subst hxy
          rw [if_neg (lt_irrefl x), if_pos rfl] at hab
          rcases lt_trichotomy x z with hxz | hxz | hxz
          · simp [hxz]
          · subst hxz
            rw [if_neg (lt_irrefl x), if_pos rfl] at hbc ⊢
            exact ih ys zs hab hbc
          · rw [if_neg (asymm hxz), if_neg (hxz.ne')] at hbc
            exact absurd hbc (by simp)
        · rw [if_neg (asymm hxy), if_neg (hxy.ne')] at hab
          exact absurd hab (by simp)

/-- The order `sort.Strings(folderKeys)` sorts by. -/
def keyLe (a b : GoStr) : Prop := lexLeB a b = true

instance : DecidableRel keyLe := fun _ _ => inferInstanceAs (Decidable (_ = true))

instance : IsTotal GoStr keyLe := ⟨lexLeB_total⟩

instance : IsTrans GoStr keyLe := ⟨lexLeB_trans⟩

/-- Model of Go `strings.ToLower` restricted to ASCII (Go lowercases
full Unicode; all keys exercised here are ASCII, where the two
agree). -/
def toLowerStr (s : GoStr) : GoStr := s.map Char.toLower

/-- A raw store-level listing entry: `(key, size, lastModified)` of
`types.Object`, with the Go `nil`-pointer defaults (0) applied.
Entries with a `nil` key are skipped by the Go loop and not
modelled. -/
structure SObj where
  key : GoStr
  size : Int
  lastModified : Int
deriving DecidableEq

/-- The caller-facing listing entry (`BucketObject` in the Go source). -/
structure BucketObject where
  key : GoStr
  name : GoStr
  kind : String
  size : String
  lastModified : Int
  icon : String
  iconColor : String
deriving DecidableEq

/-- The order the `sort.Slice` call on files sorts by:
case-insensitive lexicographic comparison of display names. -/
def fileLe (a b : BucketObject) : Prop :=
  lexLeB (toLowerStr a.name) (toLowerStr b.name) = true

instance : DecidableRel fileLe := fun _ _ => inferInstanceAs (Decidable (_ = true))

instance : IsTotal BucketObject fileLe := ⟨fun _ _ => lexLeB_total _ _⟩

instance : IsTrans BucketObject fileLe := ⟨fun _ _ _ => lexLeB_trans _ _ _⟩

/-- The accumulator of the grouping loop in
`BucketService.ListObjects`: the folder de-duplication map, the folder
keys in first-occurrence order, and the files in listing order. -/
structure ProjAcc where
  folderMap : List (GoStr × BucketObject)
  folderKeys : List GoStr
  files : List BucketObject
deriving DecidableEq

/-- One iteration of the grouping loop in `BucketService.ListObjects`
(lines handling prefix filtering, prefix stripping, leading-slash
trimming, folder synthesis with de-duplication, and file entries). -/
def projStep ( s3Pre : GoStr) (acc : ProjAcc) (obj : SObj) : ProjAcc :=
  let key0 := obj.key
  if s3Pre ≠ [] ∧ ¬ s3Pre.isPrefixOf key0 then acc
  else
    let key1 := key0.drop s3Pre.length
    let key := if s3Pre ≠ [] ∧ key1.head? = some '/' then
        key1.dropWhile (fun c => c == '/') else key1
    if key = [] then acc
    else if key.contains '/' then
      let folderRaw := key.takeWhile (fun c => c != '/')
      let folderDisplay := if folderRaw = [] then "(empty)".data else folderRaw
      let fp0 := s3Pre ++ folderRaw
      let folderPre := if ['/'].isSuffixOf fp0 then fp0 else fp0 ++ ['/']
      if (List.lookup folderPre acc.folderMap).isSome then acc
      else
        { folderMap := (folderPre,
            { key := folderPre, name := folderDisplay, kind := "folder", size := "",
              lastModified := 0, icon := "folder", iconColor := "text-amber-500" })
              :: acc.folderMap,
          folderKeys := acc.folderKeys ++ [folderPre],
          files := acc.files }
    else
      { folderMap := acc.folderMap, folderKeys := acc.folderKeys,
        files := acc.files ++
          [{ key := s3Pre ++ key, name := key, kind := "file",
             size := formatByteSize obj.size, lastModified := obj.lastModified,
             icon := "description", iconColor := "text-slate-500" }] }

/-- Model of the projection part of `BucketService.ListObjects`: group
the raw listing into de-duplicated folder entries and file entries,
sort folder keys with `sort.Strings`, sort files case-insensitively by
name, and return folders followed by files.  Go's `sort.Strings` and
`sort.Slice` are unstable sorts whose result is only specified up to
ties; folder keys are pairwise distinct so their order is fully
determined, and we determinize the file sort as an insertion sort with
the same comparator. -/
def BucketService.ListObjects (objs : List SObj) ( s3Pre : GoStr) : List BucketObject :=
  let acc := objs.foldl (projStep s3Pre) ⟨[], [], []⟩
  let sortedKeys := List.insertionSort keyLe acc.folderKeys
  let folders := sortedKeys.filterMap (fun k => List.lookup k acc.folderMap)
  let files := List.insertionSort fileLe acc.files
  folders ++ files

/-- Prefix normalization performed before listing: a non-empty prefix
gets a trailing slash. -/
def normalizePre ( p : GoStr) : GoStr :=
  if p ≠ [] ∧ ¬ ['/'].isSuffixOf p then p ++ ['/'] else p

/-- Model of Go `strings.TrimPrefix(s, pat)`: drop `pat` from the
front when it is a prefix, otherwise return `s` unchanged. -/
def trimPrefixOf (s pat : GoStr) : GoStr :=
  if pat.isPrefixOf s then s.drop pat.length else s

/-- One step of Go `path.Clean`'s element processing, on the list of
slash-separated segments: empty and `.` segments vanish; `..` pops a
preceding non-`..` segment, vanishes at the root of a rooted path, and
is kept otherwise; any other segment is appended. -/
def cleanStep (rooted : Bool) (out : List GoStr) (seg : GoStr) : List GoStr :=
  if seg = [] ∨ seg = ".".data then out
  else if seg = "..".data then
    if out ≠ [] ∧ out.getLast? ≠ some ".".data ∧ out.getLast? ≠ some "..".data then
      out.dropLast
    else if out ≠ [] ∧ out.getLast? = some "..".data then out ++ [seg]
    else if rooted then out
    else out ++ [seg]
  else out ++ [seg]

/-- Model of Go `path.Clean`: lexical path simplification.  `Clean` is
specified by the four rules in its documentation (collapse multiple
slashes, drop `.` elements, drop `..` together with the preceding
element, drop leading `..` at the root); processing the
slash-separated segments with `cleanStep` implements exactly those
rules, and the result is re-joined without a trailing slash, with
`"."` returned for an empty result. -/
def pathClean (p : GoStr) : GoStr :=
  if p = [] then ".".data
  else
    let rooted := p.head? = some '/'
    let segs := p.splitOn '/'
    let out := segs.foldl (cleanStep rooted) []
    let joined := (out.intersperse "/".data).flatten
    let res := if rooted then '/' :: joined else joined
    if res = [] then ".".data else res

/-- Model of Go `strings.Contains(s, pat)`: substring containment. -/
def containsSubstr (s pat : GoStr) : Bool :=
  match s with
  | [] => pat.isPrefixOf []
  | _ :: cs => pat.isPrefixOf s || containsSubstr cs pat

/-- The per-entry relative-path sanitization of
`BucketService.ZipFolder`: strip the folder prefix, `path.Clean` the
remainder, drop one leading slash, and reject (skip) the entry when
the result is empty, `"."`, starts with `".."`, or still contains
`"../"`.  Returns `none` for a skipped entry, `some` of the archive
path otherwise.  (Failures of the body fetch, also skipped in Go, are
transport errors outside this model.) -/
def zipEntryPath ( pre key : GoStr) : Option GoStr :=
  if key = pre then none
  else
    let relativePath := trimPrefixOf key pre
    let safePath := pathClean relativePath
    let safePath := trimPrefixOf safePath "/".data
    if safePath = [] ∨ safePath = ".".data ∨ "..".data.isPrefixOf safePath ∨
        containsSubstr safePath "../".data then none
    else some safePath

/-- The archive entry paths `BucketService.ZipFolder` writes, in
order: every enumerated key except the folder marker itself, mapped
through the sanitizer, with rejected entries skipped. -/
def zipEntryPaths ( pre : GoStr) (keys : List GoStr) : List GoStr :=
  keys.filterMap (zipEntryPath pre)

/-- One page of a paginated `ListObjectsV2` response: the entries, the
truncation flag, and the continuation token for the next page. -/
structure Page (α : Type) where
  contents : List α
  isTruncated : Bool
  nextToken : Option String

/-- Model of `ObjectStore.ListAllObjects`'s pagination loop.  The
backend is abstracted as the sequence of responses it returns to the
successive calls (the continuation token is an opaque cursor, so the
response sequence is exactly what the loop can observe): append each
page's contents and continue precisely while the page is truncated and
carries a next token. -/
def ListAllObjectsPaged {α : Type} : List (Page α) → List α
  | [] => []
  | p :: rest =>
    p.contents ++
      (if p.isTruncated ∧ p.nextToken.isSome then ListAllObjectsPaged rest else [])

/-- A well-formed backend response sequence: every page before the
last is truncated and supplies a continuation token, and the last one
signals completion.  Zero-length pages carrying a token are allowed. -/
def WellPaged {α : Type} : List (Page α) → Prop
  | [] => True
  | [p] => ¬ (p.isTruncated ∧ p.nextToken.isSome)
  | p :: rest => (p.isTruncated ∧ p.nextToken.isSome) ∧ WellPaged rest

/-- A backend that serves a fixture list in pages of `n + 1` entries:
the response sequence a store with internal page size `n + 1` returns
for the fixture. -/
def paginate {α : Type} (n : Nat) (objs : List α) : List (Page α) :=
  if h : objs.length ≤ n + 1 then [⟨objs, false, none⟩]
  else ⟨objs.take (n + 1), true, some "tok"⟩ :: paginate n (objs.drop (n + 1))
termination_by objs.length
decreasing_by
  simp only [List.length_drop]
  omega

/-- The expiry actually used by `ObjectStore.PresignObject`:
`ExpiresIn` when positive, else the 15-minute default.  Durations are
Go `time.Duration` nanosecond counts. -/
def presignEffectiveExpires (expiresIn : Int) : Int :=
  if expiresIn ≤ 0 then 15 * 60 * 1000000000 else expiresIn

/-- ASCII upper-casing, modelling Go `strings.ToUpper` on the ASCII
method names it is applied to. -/
def toUpperStr (s : GoStr) : GoStr := s.map Char.toUpper

/-- Model of `ObjectStore.PresignObject`: substitute the default
expiry when the requested one is not positive, then dispatch on the
upper-cased method, returning the method and the expiry bound into the
signature (the AWS presign client is abstracted to that pair), or an
error for an unsupported method. -/
def ObjectStore.PresignObject (method : GoStr) (expiresIn : Int) :
    Except String (GoStr × Int) :=
  let expires := presignEffectiveExpires expiresIn
  let m := toUpperStr method
  if m = "PUT".data then .ok ("PUT".data, expires)
  else if m = "GET".data then .ok ("GET".data, expires)
  else .error "unsupported method"

/-- Model of the expiry computation in the HTTP handler
`Handler.PresignObject`: a request body carrying `expiresInSeconds`
yields that many seconds; an absent field yields the 15-minute
default. -/
def Handler.presignExpires (reqExpires : Option Int) : Int :=
  match reqExpires with
  | some s => s * 1000000000
  | none => 15 * 60 * 1000000000

/-- The immediate child segment of a prefix-stripped key: up to and
including the first slash for a deeper key, the whole remainder for a
direct file. -/
def childSeg (r : GoStr) : GoStr :=
  if r.contains '/' then r.takeWhile (fun c => c != '/') ++ ['/'] else r

/-- The immediate child segment a produced listing entry stands for: a
folder entry's key with the listing prefix stripped, or a file entry's
display name. -/
def entrySeg ( s3Pre : GoStr) (e : BucketObject) : GoStr :=
  if e.kind = "folder" then e.key.drop s3Pre.length else e.name

/-- Claim C1: renaming folder `a/` to `b/` over the store
`{a/, a/x, a/y/z}` reports success and creates `b/`, `b/x`, `b/y/z` —
but leaves `a/x` and `a/y/z` behind, because the deletion step invokes
the storage-level `ObjectStore.DeleteObjects` on the single marker key
`a/`, which performs no folder expansion, although the call-site
comment says the delete "handles folders".  The outcome also carries
no key lists, only `Success`/`Message`.  This evaluates the code at
the failing input. -/
theorem rename_folder_leaves_descendants :
    BucketService.RenameObject ⟨["a/".data, "a/x".data, "a/y/z".data]⟩ "a/".data "b/".data
      = (⟨["a/x".data, "a/y/z".data, "b/".data, "b/x".data, "b/y/z".data]⟩,
         ⟨true, "Object renamed successfully"⟩) ∧
    "a/x".data ∈
      (BucketService.RenameObject ⟨["a/".data, "a/x".data, "a/y/z".data]⟩
          "a/".data "b/".data).1.keys ∧
    "a/y/z".data ∈
      (BucketService.RenameObject ⟨["a/".data, "a/x".data, "a/y/z".data]⟩
          "a/".data "b/".data).1.keys := by
  decide

/-- Claim C2 (counterexample): copying folder `a/` to `b/` over the
store `{a/, a/x}` reports success but copies only the marker object:
the descendant `a/x` is not copied to `b/x`, so the copy operation
does not recurse over descendant keys. -/
theorem copy_folder_no_recursion_cex :
    BucketService.CopyObject ⟨["a/".data, "a/x".data]⟩ "a/".data "b/".data
      = (⟨["a/".data, "a/x".data, "b/".data]⟩, ⟨true, "Object copied successfully"⟩) ∧
    "b/x".data ∉
      (BucketService.CopyObject ⟨["a/".data, "a/x".data]⟩ "a/".data "b/".data).1.keys := by
  decide

/-- Claim C2 (amended): `BucketService.CopyObject` issues exactly one
server-side copy of the given key — it never expands a folder key into
its descendants — and deletes nothing: every pre-existing key is still
present afterwards, and the only key the operation can add is the
destination key itself. -/
theorem copy_single_key_only (st : S3Store) (src dst : GoStr) :
    (∀ k ∈ st.keys, k ∈ (BucketService.CopyObject st src dst).1.keys) ∧
    (∀ k ∈ (BucketService.CopyObject st src dst).1.keys, k ∈ st.keys ∨ k = dst) := by
  unfold BucketService.CopyObject S3Store.copyObject
  split_ifs with h1 h2 <;> constructor <;> intro k hk <;>
    simp_all [List.mem_append]

theorem copy_single_key_only_witness :
    "a/x".data ∈
      (BucketService.CopyObject ⟨["a/".data, "a/x".data]⟩ "a/".data "b/".data).1.keys :=
  (copy_single_key_only ⟨["a/".data, "a/x".data]⟩ "a/".data "b/".data).1
    "a/x".data (by decide)

/-- Claim C4 (counterexample): on an empty store (the folder `a/`
matches zero objects and its marker does not exist), renaming the
folder fails — the unconditional folder-marker copy hits a missing
source object — and so does copying it; neither is a successful
no-op. -/
theorem rename_copy_absent_folder_cex :
    (BucketService.RenameObject ⟨[]⟩ "a/".data "b/".data).2.success = false ∧
    (BucketService.CopyObject ⟨[]⟩ "a/".data "b/".data).2.success = false := by
  decide

/-- Claim C4 (amended): for a folder key matching zero objects,
deleting it is a successful no-op — the outcome lists the requested
key as deleted, reports zero failed keys, and the store is unchanged —
but renaming or copying such a folder returns a failure, because both
unconditionally copy the (absent) folder marker. -/
theorem folder_zero_match_behavior (st : S3Store) (fk dst : GoStr)
    (hfk : ['/'].isSuffixOf fk = true) (habs : st.listAllKeys fk = []) :
    (BucketService.DeleteObjects st [fk]).2 = ⟨[fk], []⟩ ∧
    (BucketService.DeleteObjects st [fk]).1 = st ∧
    (BucketService.RenameObject st fk dst).2.success = false ∧
    (BucketService.CopyObject st fk dst).2.success = false := by
  have hmem : fk ∉ st.keys := by
    intro hin
    have hx : fk ∈ st.listAllKeys fk := by
      simp only [S3Store.listAllKeys, List.mem_filter]
      exact ⟨hin, by simp [List.isPrefixOf_iff_prefix]⟩
    rw [habs] at hx
    exact absurd hx (List.not_mem_nil _)
  have h1 : BucketService.DeleteObjects st [fk]
      = (ObjectStore.DeleteObjects st [fk], ⟨[fk], []⟩) := by
    simp [BucketService.DeleteObjects, habs, hfk]
  refine ⟨?_, ?_, ?_, ?_⟩
  · rw [h1]
  · rw [h1]
    show ObjectStore.DeleteObjects st [fk] = st
    simp only [ObjectStore.DeleteObjects]
    have hfilter : st.keys.filter (fun k => decide (k ∉ [fk])) = st.keys := by
      rw [List.filter_eq_self]
      intro k hk
      simp only [List.mem_singleton, decide_eq_true_eq]
      exact fun hkfk => hmem (hkfk ▸ hk)
    rw [hfilter]
  · simp [BucketService.RenameObject, hfk, habs, BucketService.copyLoop,
      S3Store.copyObject, hmem]
  · simp [BucketService.CopyObject, S3Store.copyObject, hmem]

theorem folder_zero_match_behavior_witness :
    (BucketService.DeleteObjects ⟨["c".data]⟩ ["a/".data]).2 = ⟨["a/".data], []⟩ ∧
    (BucketService.DeleteObjects ⟨["c".data]⟩ ["a/".data]).1 = ⟨["c".data]⟩ ∧
    (BucketService.RenameObject ⟨["c".data]⟩ "a/".data "b/".data).2.success = false ∧
    (BucketService.CopyObject ⟨["c".data]⟩ "a/".data "b/".data).2.success = false :=
  folder_zero_match_behavior ⟨["c".data]⟩ "a/".data "b/".data (by decide) (by decide)

/-- Claim C3 (counterexample): rename does not return succeeded/failed
key lists.  A folder rename that moves three objects (marker plus two
files, adding `b/`, `b/x`, `b/y/z`) and a folder rename that moves a
single marker object (adding only `d/`) produce the *identical*
outcome value `{Success: true, Message: "Object renamed successfully"}`,
so the outcome of rename (and likewise copy) is a single pass/fail
boolean plus message from which no succeeded/failed key sets can be
recovered. -/
theorem rename_outcome_collapses_cex :
    (BucketService.RenameObject ⟨["a/".data, "a/x".data, "a/y/z".data]⟩
        "a/".data "b/".data).2
      = (BucketService.RenameObject ⟨["c/".data]⟩ "c/".data "d/".data).2 ∧
    (BucketService.RenameObject ⟨["a/".data, "a/x".data, "a/y/z".data]⟩
        "a/".data "b/".data).1.keys.length = 5 ∧
    (BucketService.RenameObject ⟨["c/".data]⟩ "c/".data "d/".data).1.keys.length = 1 ∧
    (BucketService.RenameObject ⟨["a/".data, "a/x".data, "a/y/z".data]⟩
        "a/".data "b/".data).2
      = ⟨true, "Object renamed successfully"⟩ := by
  decide

/-- Each input key contributes at least one element to the expanded
key list `BucketService.DeleteObjects` builds, so the expansion of a
non-empty key list is non-empty. -/
theorem expand_foldl_length (st : S3Store) :
    ∀ (keys acc : List GoStr),
      acc.length + keys.length ≤
        (keys.foldl (fun acc key =>
          if ['/'].isSuffixOf key then acc ++ st.listAllKeys key ++ [key]
          else acc ++ [key]) acc).length := by
  intro keys
  induction keys with
  | nil => intro acc; simp
  | cons k ks ih =>
    intro acc
    simp only [List.foldl_cons]
    split_ifs with h
    · have h2 := ih (acc ++ st.listAllKeys k ++ [k])
      simp only [List.length_append, List.length_cons, List.length_singleton] at h2 ⊢
      omega
    · have h2 := ih (acc ++ [k])
      simp only [List.length_append, List.length_cons, List.length_singleton] at h2 ⊢
      omega

/-- Claim C3 (amended): of the three multi-key mutations, only the
bulk delete returns explicit key lists (`Deleted`/`Failed`); with the
store operations total (transport errors are outside the model) it
always reports the requested keys as deleted and zero failures.
Rename and copy return only a `Success` boolean plus a `Message`, and
every successful rename yields the one fixed outcome value, so their
outcomes carry no per-key success/failure information. -/
theorem multikey_outcome_shapes (st : S3Store) (keys : List GoStr) (src dst : GoStr) :
    ((BucketService.DeleteObjects st keys).2 = ⟨keys, []⟩ ∨ keys = [] ∧
      (BucketService.DeleteObjects st keys).2 = ⟨[], []⟩) ∧
    ((BucketService.RenameObject st src dst).2.success = true →
      (BucketService.RenameObject st src dst).2 = ⟨true, "Object renamed successfully"⟩) ∧
    ((BucketService.CopyObject st src dst).2.success = true →
      (BucketService.CopyObject st src dst).2 = ⟨true, "Object copied successfully"⟩) := by
  refine ⟨?_, ?_, ?_⟩
  case refine_2 =>
    intro hsucc
    by_cases h : ['/'].isSuffixOf src = true
    · simp only [BucketService.RenameObject, h, if_true] at hsucc ⊢
      rcases hcl : BucketService.copyLoop src dst st (st.listAllKeys src) with ⟨st1, ok⟩
      rw [hcl] at hsucc
      cases ok with
      | false => simp at hsucc
      | true =>
        cases hco : st1.copyObject src dst with
        | error e => simp [hco] at hsucc
        | ok st2 => simp [hco]
    · simp only [BucketService.RenameObject, h] at hsucc ⊢
      rw [if_neg (by simp [h])] at hsucc ⊢
      cases hco : st.copyObject src dst with
      | error e => rw [hco] at hsucc; simp at hsucc
      | ok st1 => simp
  case refine_3 =>
    intro hsucc
    cases hco : st.copyObject src dst with
    | error e =>
      simp only [BucketService.CopyObject] at hsucc
      rw [hco] at hsucc
      simp at hsucc
    | ok st1 => simp [BucketService.CopyObject, hco]
  by_cases hk : keys = []
  · right
    subst hk
    exact ⟨rfl, by simp [BucketService.DeleteObjects]⟩
  · left
    have hne : (keys.foldl (fun acc key =>
        if ['/'].isSuffixOf key then acc ++ st.listAllKeys key ++ [key]
        else acc ++ [key]) []) ≠ [] := by
      intro hnil
      have h2 := expand_foldl_length st keys []
      rw [hnil] at h2
      simp only [List.length_nil, Nat.zero_add, Nat.le_zero, List.length_eq_zero] at h2
      exact hk h2
    simp only [BucketService.DeleteObjects]
    rw [if_neg hne]

theorem multikey_outcome_shapes_witness :
    (BucketService.RenameObject ⟨["c/".data]⟩ "c/".data "d/".data).2
      = ⟨true, "Object renamed successfully"⟩ :=
  (multikey_outcome_shapes ⟨["c/".data]⟩ [] "c/".data "d/".data).2.1 (by decide)

/-- Claim C8: no archive entry path produced by the `ZipFolder`
sanitizer is empty, `"."`, or begins with `".."` (which covers the
path being exactly `".."`); a key failing the check is skipped while
every key whose sanitized path passes is still written; and the
fixture `{"x", "../evil", "a/../../b"}` keeps only `"x"`. -/
theorem zip_entry_paths_safe ( pre : GoStr) (keys : List GoStr) :
    (∀ p ∈ zipEntryPaths pre keys,
      p ≠ [] ∧ p ≠ ".".data ∧ ¬ "..".data.isPrefixOf p = true) ∧
    (∀ key ∈ keys, ∀ p, zipEntryPath pre key = some p → p ∈ zipEntryPaths pre keys) ∧
    zipEntryPaths [] ["x".data, "../evil".data, "a/../../b".data] = ["x".data] := by
  refine ⟨?_, ?_, by decide⟩
  · intro p hp
    rw [zipEntryPaths, List.mem_filterMap] at hp
    obtain ⟨key, -, hkey⟩ := hp
    simp only [zipEntryPath] at hkey
    split_ifs at hkey with h1 h2
    rw [Option.some.injEq] at hkey
    subst hkey
    push_neg at h2
    exact ⟨h2.1, h2.2.1, h2.2.2.1⟩
  · intro key hkey p hp
    rw [zipEntryPaths, List.mem_filterMap]
    exact ⟨key, hkey, hp⟩

theorem zip_entry_paths_safe_witness :
    "x".data ≠ ([] : GoStr) ∧ "x".data ≠ ".".data ∧
      ¬ "..".data.isPrefixOf "x".data = true :=
  (zip_entry_paths_safe [] ["x".data, "../evil".data, "a/../../b".data]).1
    "x".data (by decide)

/-- Claim C10: a presign request with a non-positive expiry gets the
15-minute default (Go `15 * time.Minute`, in nanoseconds) substituted
— the request is signed for a positive validity window rather than
failing or producing an already-expired URL — and the HTTP handler
substitutes the same 15-minute default when the request body carries
no `expiresInSeconds` field. -/
theorem presign_default_expiry (method : GoStr) (e : Int) (he : e ≤ 0)
    (hm : toUpperStr method = "GET".data ∨ toUpperStr method = "PUT".data) :
    ObjectStore.PresignObject method e = .ok (toUpperStr method, 15 * 60 * 1000000000) ∧
    presignEffectiveExpires e = 15 * 60 * 1000000000 ∧
    0 < presignEffectiveExpires e ∧
    Handler.presignExpires none = 15 * 60 * 1000000000 := by
  have heff : presignEffectiveExpires e = 15 * 60 * 1000000000 := by
    rw [presignEffectiveExpires, if_pos he]
  refine ⟨?_, heff, by rw [heff]; decide, rfl⟩
  rcases hm with hm | hm
  · rw [ObjectStore.PresignObject, hm, heff]
    rw [if_neg (by decide), if_pos rfl]
  · rw [ObjectStore.PresignObject, hm, heff]
    rw [if_pos rfl]

theorem presign_default_expiry_witness :
    ObjectStore.PresignObject "get".data (-5)
        = .ok (toUpperStr "get".data, 15 * 60 * 1000000000) ∧
      presignEffectiveExpires (-5) = 15 * 60 * 1000000000 ∧
      0 < presignEffectiveExpires (-5) ∧
      Handler.presignExpires none = 15 * 60 * 1000000000 :=
  presign_default_expiry "get".data (-5) (by decide) (Or.inl (by decide))

/-- On a well-formed response sequence, the pagination loop collects
exactly the concatenation of every page's contents, zero-length token
pages included. -/
theorem listAllPaged_flatten {α : Type} :
    ∀ ps : List (Page α), WellPaged ps →
      ListAllObjectsPaged ps = (ps.map Page.contents).flatten := by
  intro ps
  induction ps with
  | nil => intro _; rfl
  | cons p rest ih =>
    intro hwf
    cases rest with
    | nil =>
      simp only [WellPaged] at hwf
      simp only [ListAllObjectsPaged]
      rw [if_neg hwf]
      simp
    | cons q rest2 =>
      obtain ⟨hp, hrest⟩ := hwf
      rw [ListAllObjectsPaged, if_pos hp, ih hrest]
      simp

/-- Draining a backend that serves a fixture in pages of any size
returns exactly the fixture. -/
theorem listAll_paginate {α : Type} (n : Nat) (objs : List α) :
    ListAllObjectsPaged (paginate n objs) = objs := by
  suffices h : ∀ (len : Nat) (l : List α), l.length = len →
      ListAllObjectsPaged (paginate n l) = l from h objs.length objs rfl
  intro len
  induction len using Nat.strong_induction_on with
  | _ len ih =>
    intro l hlen
    rw [paginate]
    split_ifs with h
    · simp [ListAllObjectsPaged]
    · rw [ListAllObjectsPaged, if_pos (by simp)]
      rw [ih (l.drop (n + 1)).length (by simp only [List.length_drop]; omega)
        (l.drop (n + 1)) rfl]
      exact List.take_append_drop _ _

/-- Claim C7: the enumeration engine collects exactly the
concatenation of the returned pages, following the continuation token
while the store signals more pages (zero-length pages carrying a token
included), and its result — hence its total key count — is identical
whether the backend serves `m + 1` entries per page or `n + 1` entries
per page over the same fixture. -/
theorem enumeration_page_size_independent {α : Type} (ps : List (Page α))
    (hwf : WellPaged ps) (m n : Nat) (objs : List α) :
    ListAllObjectsPaged ps = (ps.map Page.contents).flatten ∧
    ListAllObjectsPaged (paginate m objs) = objs ∧
    (ListAllObjectsPaged (paginate m objs)).length
      = (ListAllObjectsPaged (paginate n objs)).length := by
  refine ⟨listAllPaged_flatten ps hwf, listAll_paginate m objs, ?_⟩
  rw [listAll_paginate m objs, listAll_paginate n objs]

theorem enumeration_page_size_independent_witness :
    WellPaged [Page.mk [1, 2] true (some "t"), Page.mk ([] : List Nat) true (some "t"),
        Page.mk [3] false none] ∧
      (ListAllObjectsPaged [Page.mk [1, 2] true (some "t"),
          Page.mk ([] : List Nat) true (some "t"), Page.mk [3] false none]
        = ([Page.mk [1, 2] true (some "t"), Page.mk ([] : List Nat) true (some "t"),
            Page.mk [3] false none].map Page.contents).flatten ∧
      ListAllObjectsPaged (paginate 0 [5, 6, 7]) = [5, 6, 7] ∧
      (ListAllObjectsPaged (paginate 0 [5, 6, 7])).length
        = (ListAllObjectsPaged (paginate 999 [5, 6, 7])).length) :=
  ⟨by simp [WellPaged],
    enumeration_page_size_independent _ (by simp [WellPaged]) 0 999 [5, 6, 7]⟩

/-- Claim C6 (counterexample): folders are sorted case-sensitively.
Under the bucket root, folders `B/` and `a/` are listed in the order
`B`, `a` (byte order via `sort.Strings` on the folder keys), although
case-insensitive ordering by display name would place `a` before `B`
(strictly: `lower "a" ≤ lower "B"` holds and `lower "B" ≤ lower "a"`
fails). -/
theorem folder_sort_case_sensitive_cex :
    (BucketService.ListObjects [⟨"B/x".data, 0, 0⟩, ⟨"a/y".data, 0, 0⟩] []).map
        BucketObject.name = ["B".data, "a".data] ∧
    lexLeB (toLowerStr "a".data) (toLowerStr "B".data) = true ∧
    ¬ lexLeB (toLowerStr "B".data) (toLowerStr "a".data) = true := by
  decide

/-- The invariant the grouping loop maintains: folder-map values carry
their own key and the folder kind, files carry the file kind, the
folder key list enumerates exactly the mapped keys, and the folder key
list has no duplicates. -/
def ProjInv (acc : ProjAcc) : Prop :=
  (∀ k bo, List.lookup k acc.folderMap = some bo → bo.key = k ∧ bo.kind = "folder") ∧
  (∀ e ∈ acc.files, e.kind = "file") ∧
  (∀ k : GoStr, (List.lookup k acc.folderMap).isSome = true ↔ k ∈ acc.folderKeys) ∧
  acc.folderKeys.Nodup

theorem ProjInv.base : ProjInv ⟨[], [], []⟩ := by
  refine ⟨?_, ?_, ?_, List.nodup_nil⟩ <;> simp [List.lookup]

theorem ProjInv.insert (acc : ProjAcc) (fp : GoStr) (bo : BucketObject)
    (hinv : ProjInv acc) (hnew : ¬ (List.lookup fp acc.folderMap).isSome = true)
    (hkey : bo.key = fp) (hkind : bo.kind = "folder") :
    ProjInv ⟨(fp, bo) :: acc.folderMap, acc.folderKeys ++ [fp], acc.files⟩ := by
  obtain ⟨hvals, hfiles, hsome, hnd⟩ := hinv
  refine ⟨?_, hfiles, ?_, ?_⟩
  · intro k bo2 h
    simp only [List.lookup] at h
    cases hbe : k == fp with
    | true =>
      obtain rfl : k = fp := eq_of_beq hbe
      simp only [hbe] at h
      obtain rfl : bo = bo2 := Option.some.inj h
      exact ⟨hkey, hkind⟩
    | false =>
      simp only [hbe] at h
      exact hvals k bo2 h
  · intro k
    simp only [List.lookup]
    cases hbe : k == fp with
    | true =>
      obtain rfl : k = fp := eq_of_beq hbe
      simp only [hbe]
      simp
    | false =>
      simp only [hbe]
      rw [hsome k]
      have hk : k ≠ fp := fun he => by simp [he] at hbe
      simp [hk]
  · have hfp : fp ∉ acc.folderKeys := fun hmem => hnew ((hsome fp).mpr hmem)
    simp [List.nodup_append, hnd, hfp]

theorem ProjInv.addFile (acc : ProjAcc) (e : BucketObject) (hinv : ProjInv acc)
    (hkind : e.kind = "file") :
    ProjInv ⟨acc.folderMap, acc.folderKeys, acc.files ++ [e]⟩ := by
  obtain ⟨hvals, hfiles, hsome, hnd⟩ := hinv
  refine ⟨hvals, ?_, hsome, hnd⟩
  intro x hx
  rcases List.mem_append.mp hx with hx | hx
  · exact hfiles x hx
  · rw [List.mem_singleton.mp hx]
    exact hkind

theorem projStep_inv ( s3Pre : GoStr) (acc : ProjAcc) (obj : SObj)
    (hinv : ProjInv acc) : ProjInv (projStep s3Pre acc obj) := by
  simp only [projStep]
  split_ifs
  all_goals first
    | exact hinv
    | exact ProjInv.addFile acc _ hinv (by rfl)
    | exact ProjInv.insert acc _ _ hinv (by assumption) (by rfl) (by rfl)

theorem foldl_projStep_inv ( s3Pre : GoStr) :
    ∀ (objs : List SObj) (acc : ProjAcc), ProjInv acc →
      ProjInv (objs.foldl (projStep s3Pre) acc) := by
  intro objs
  induction objs with
  | nil => intro acc h; exact h
  | cons o os ih => intro acc h; exact ih _ (projStep_inv _ _ _ h)

/-- Looking every key of `ks` up in a map whose values carry their key
and the folder kind yields entries whose keys are exactly `ks` and
whose kind is folder. -/
theorem filterMap_lookup_spec (m : List (GoStr × BucketObject))
    (hvals : ∀ k bo, List.lookup k m = some bo → bo.key = k ∧ bo.kind = "folder") :
    ∀ ks : List GoStr, (∀ k ∈ ks, (List.lookup k m).isSome = true) →
      (ks.filterMap (fun k => List.lookup k m)).map BucketObject.key = ks ∧
      ∀ e ∈ ks.filterMap (fun k => List.lookup k m), e.kind = "folder" := by
  intro ks
  induction ks with
  | nil => intro _; exact ⟨rfl, by simp⟩
  | cons k ks ih =>
    intro hsome
    obtain ⟨bo, hbo⟩ := Option.isSome_iff_exists.mp (hsome k (List.mem_cons_self k ks))
    obtain ⟨ihmap, ihkind⟩ := ih (fun k2 hk2 => hsome k2 (List.mem_cons_of_mem k hk2))
    rw [List.filterMap_cons, hbo]
    constructor
    · simp only [List.map_cons, ihmap, (hvals k bo hbo).1]
    · intro e he
      rcases List.mem_cons.mp he with rfl | he
      · exact (hvals k _ hbo).2
      · exact ihkind e he

/-- Claim C6 (amended): the projected listing is folders followed by
files; the folder block is sorted by the byte-wise (case-SENSITIVE)
lexicographic order of the folder keys — `sort.Strings` — while the
file block is sorted case-insensitively by display name; and the whole
result is a permutation (a pure re-ordering, issuing no further store
queries) of the unsorted projection the grouping loop produced.  The
Go file sort is `sort.Slice`, an unstable sort, so order among files
with equal lower-cased names is not specified; folder keys are
pairwise distinct, so the folder order is fully determined. -/
theorem listObjects_sort_order (objs : List SObj) ( s3Pre : GoStr) :
    ∃ fs gs : List BucketObject,
      BucketService.ListObjects objs s3Pre = fs ++ gs ∧
      (∀ e ∈ fs, e.kind = "folder") ∧
      (∀ e ∈ gs, e.kind = "file") ∧
      List.Sorted (fun a b => keyLe a.key b.key) fs ∧
      List.Sorted fileLe gs ∧
      (fs ++ gs).Perm
        (((objs.foldl (projStep s3Pre) ⟨[], [], []⟩).folderKeys.filterMap
            (fun k => List.lookup k (objs.foldl (projStep s3Pre) ⟨[], [], []⟩).folderMap))
          ++ (objs.foldl (projStep s3Pre) ⟨[], [], []⟩).files) := by
  obtain ⟨hvals, hfiles, hsome, hnd⟩ :=
    foldl_projStep_inv s3Pre objs ⟨[], [], []⟩ ProjInv.base
  refine ⟨((objs.foldl (projStep s3Pre) ⟨[], [], []⟩).folderKeys.insertionSort
        keyLe).filterMap
      (fun k => List.lookup k (objs.foldl (projStep s3Pre) ⟨[], [], []⟩).folderMap),
    (objs.foldl (projStep s3Pre) ⟨[], [], []⟩).files.insertionSort fileLe,
    rfl, ?_, ?_, ?_, ?_, ?_⟩
  · exact (filterMap_lookup_spec _ hvals _
      (fun k hk => (hsome k).mpr ((List.mem_insertionSort keyLe).mp hk))).2
  · intro e he
    exact hfiles e ((List.mem_insertionSort fileLe).mp he)
  · have hmapkey := (filterMap_lookup_spec _ hvals _
      (fun k hk => (hsome k).mpr ((List.mem_insertionSort keyLe).mp hk))).1
    have hsorted : List.Sorted keyLe
        ((objs.foldl (projStep s3Pre) ⟨[], [], []⟩).folderKeys.insertionSort keyLe) :=
      List.sorted_insertionSort keyLe _
    rw [← hmapkey] at hsorted
    exact (List.pairwise_map).mp hsorted
  · exact List.sorted_insertionSort fileLe _
  · exact List.Perm.append
      (List.Perm.filterMap _ (List.perm_insertionSort keyLe _))
      (List.perm_insertionSort fileLe _)

theorem slash_suffix_iff (l : GoStr) :
    ['/'].isSuffixOf l = true ↔ l.getLast? = some '/' := by
  rw [List.isSuffixOf_iff_suffix]
  constructor
  · rintro ⟨t, rfl⟩
    rw [List.getLast?_append_of_ne_nil t (by simp)]
    rfl
  · intro h
    have hne : l ≠ [] := by rintro rfl; simp at h
    have hlast : l.getLast hne = '/' := by
      have h2 := List.getLast?_eq_getLast l hne
      rw [h2] at h
      exact Option.some.inj h
    refine ⟨l.dropLast, ?_⟩
    rw [← hlast]
    exact List.dropLast_append_getLast hne

theorem takeWhile_ne_slash (rem : GoStr) (c : Char)
    (hc : c ∈ rem.takeWhile (fun c => c != '/')) : c ≠ '/' := by
  have h2 := List.mem_takeWhile_imp hc
  simpa using h2

theorem takeWhile_nil_head (rem : GoStr) (hslash : rem.contains '/' = true)
    (hraw : rem.takeWhile (fun c => c != '/') = []) : rem.head? = some '/' := by
  cases rem with
  | nil => simp at hslash
  | cons c cs =>
    by_cases hc : (c != '/') = true
    · simp only [List.takeWhile_cons, if_pos hc] at hraw
      simp at hraw
    · have hceq : c = '/' := by simpa using hc
      simp [hceq]

theorem folderPre_eq_childSeg ( s3Pre rem : GoStr) (hslash : rem.contains '/' = true)
    (hhead : rem.takeWhile (fun c => c != '/') = [] → s3Pre = []) :
    (if ['/'].isSuffixOf ( s3Pre ++ rem.takeWhile (fun c => c != '/'))
     then s3Pre ++ rem.takeWhile (fun c => c != '/')
     else s3Pre ++ rem.takeWhile (fun c => c != '/') ++ ['/'])
      = s3Pre ++ childSeg rem := by
  rw [childSeg, if_pos hslash]
  by_cases hraw : rem.takeWhile (fun c => c != '/') = []
  · have h0 : s3Pre = [] := hhead hraw
    subst h0
    rw [hraw]
    rfl
  · have hsuf : ¬ (['/'].isSuffixOf ( s3Pre ++ rem.takeWhile (fun c => c != '/')) = true) := by
      rw [slash_suffix_iff]
      rw [List.getLast?_append_of_ne_nil _ hraw]
      rw [List.getLast?_eq_getLast _ hraw]
      intro h
      exact takeWhile_ne_slash rem _ (List.getLast_mem hraw) (Option.some.inj h)
    rw [if_neg hsuf]
    simp

/-- The file entry `BucketService.ListObjects` emits for a direct file
whose prefix-stripped key is `o.key.drop s3Pre.length`. -/
def fileEntry ( s3Pre : GoStr) (o : SObj) : BucketObject :=
  { key := s3Pre ++ o.key.drop s3Pre.length, name := o.key.drop s3Pre.length,
    kind := "file", size := formatByteSize o.size, lastModified := o.lastModified,
    icon := "description", iconColor := "text-slate-500" }

/-- Closed form of one grouping-loop iteration, for an object whose
prefix-stripped key does not start with a slash under a non-empty
prefix (the leading-slash trim branch is then inactive). -/
theorem projStep_eq ( s3Pre : GoStr) (acc : ProjAcc) (o : SObj)
    (hcl : s3Pre ≠ [] → List.isPrefixOf s3Pre o.key = true →
      (o.key.drop s3Pre.length).head? ≠ some '/') :
    projStep s3Pre acc o =
      if s3Pre ≠ [] ∧ ¬ List.isPrefixOf s3Pre o.key = true then acc
      else if o.key.drop s3Pre.length = [] then acc
      else if (o.key.drop s3Pre.length).contains '/' then
        (if (List.lookup ( s3Pre ++ childSeg (o.key.drop s3Pre.length))
              acc.folderMap).isSome = true then acc
         else { folderMap := ( s3Pre ++ childSeg (o.key.drop s3Pre.length),
                  { key := s3Pre ++ childSeg (o.key.drop s3Pre.length),
                    name := (if (o.key.drop s3Pre.length).takeWhile (fun c => c != '/') = []
                             then "(empty)".data
                             else (o.key.drop s3Pre.length).takeWhile (fun c => c != '/')),
                    kind := "folder", size := "", lastModified := 0,
                    icon := "folder", iconColor := "text-amber-500" }) :: acc.folderMap,
                folderKeys := acc.folderKeys ++
                  [ s3Pre ++ childSeg (o.key.drop s3Pre.length)],
                files := acc.files })
      else { folderMap := acc.folderMap, folderKeys := acc.folderKeys,
             files := acc.files ++ [fileEntry s3Pre o] } := by
  simp only [projStep, fileEntry]
  by_cases hskip : s3Pre ≠ [] ∧ ¬ List.isPrefixOf s3Pre o.key = true
  · rw [if_pos hskip, if_pos hskip]
  · rw [if_neg hskip, if_neg hskip]
    have hnohead : ¬ ( s3Pre ≠ [] ∧ (o.key.drop s3Pre.length).head? = some '/') := by
      rintro ⟨hne, hh⟩
      rcases Decidable.em (List.isPrefixOf s3Pre o.key = true) with hp | hp
      · exact hcl hne hp hh
      · exact hskip ⟨hne, hp⟩
    rw [if_neg hnohead]
    by_cases hnil : o.key.drop s3Pre.length = []
    · rw [if_pos hnil, if_pos hnil]
    · rw [if_neg hnil, if_neg hnil]
      by_cases hslash : (o.key.drop s3Pre.length).contains '/' = true
      · rw [if_pos hslash, if_pos hslash]
        have hhead : (o.key.drop s3Pre.length).takeWhile (fun c => c != '/') = [] →
            s3Pre = [] := by
          intro hraw
          by_contra hne
          exact hnohead ⟨hne, takeWhile_nil_head _ hslash hraw⟩
        rw [folderPre_eq_childSeg s3Pre _ hslash hhead]
      · rw [if_neg hslash, if_neg hslash]

/-- The raw-listing objects that project to a direct file entry:
prefix matched, non-empty remainder, no deeper slash. -/
def isFileObj ( s3Pre : GoStr) (o : SObj) : Bool :=
  List.isPrefixOf s3Pre o.key && (o.key.drop s3Pre.length != []) &&
    !((o.key.drop s3Pre.length).contains '/')

theorem exists_mem_cons {α : Type} {P : α → Prop} (o : α) (os : List α) :
    (∃ x ∈ o :: os, P x) ↔ P o ∨ ∃ x ∈ os, P x := by
  simp [List.mem_cons, or_and_right, exists_or]

/-- What the grouping loop accumulates: the files are the projected
file objects in listing order, and the folder keys are exactly the
prefixed child segments of the deeper objects. -/
theorem foldl_projStep_content ( s3Pre : GoStr) :
    ∀ (objs : List SObj) (acc : ProjAcc),
      (∀ o ∈ objs, s3Pre ≠ [] → List.isPrefixOf s3Pre o.key = true →
        (o.key.drop s3Pre.length).head? ≠ some '/') →
      ProjInv acc →
      ((objs.foldl (projStep s3Pre) acc).files
        = acc.files ++ (objs.filter (isFileObj s3Pre)).map (fileEntry s3Pre)) ∧
      (∀ k : GoStr, k ∈ (objs.foldl (projStep s3Pre) acc).folderKeys ↔
        (k ∈ acc.folderKeys ∨ ∃ o ∈ objs, List.isPrefixOf s3Pre o.key = true ∧
          o.key.drop s3Pre.length ≠ [] ∧ (o.key.drop s3Pre.length).contains '/' = true ∧
          k = s3Pre ++ childSeg (o.key.drop s3Pre.length))) := by
  intro objs
  induction objs with
  | nil =>
    intro acc _ _
    exact ⟨by simp, fun k => by simp⟩
  | cons o os ih =>
    intro acc hcl hinv
    have hclo := hcl o (List.mem_cons_self o os)
    have hclos : ∀ o2 ∈ os, s3Pre ≠ [] → List.isPrefixOf s3Pre o2.key = true →
        (o2.key.drop s3Pre.length).head? ≠ some '/' :=
      fun o2 h2 => hcl o2 (List.mem_cons_of_mem o h2)
    rw [List.foldl_cons, projStep_eq s3Pre acc o hclo]
    by_cases h1 : s3Pre ≠ [] ∧ ¬ List.isPrefixOf s3Pre o.key = true
    · rw [if_pos h1]
      obtain ⟨hfiles, hkeys⟩ := ih acc hclos hinv
      refine ⟨?_, ?_⟩
      · have hcond : ¬ (isFileObj s3Pre o = true) := by simp [isFileObj, h1.2]
        rw [hfiles, List.filter_cons, if_neg hcond]
      · intro k
        rw [hkeys k, exists_mem_cons]
        have hPo : ¬ (List.isPrefixOf s3Pre o.key = true ∧
            o.key.drop s3Pre.length ≠ [] ∧
            (o.key.drop s3Pre.length).contains '/' = true ∧
            k = s3Pre ++ childSeg (o.key.drop s3Pre.length)) := by
          rintro ⟨hp, -, -, -⟩
          exact h1.2 hp
        simp only [hPo, false_or]
    · rw [if_neg h1]
      have hpre : List.isPrefixOf s3Pre o.key = true := by
        rcases Decidable.em ( s3Pre = []) with hp | hp
        · subst hp
          exact List.isPrefixOf_iff_prefix.mpr List.nil_prefix
        · push_neg at h1; exact h1 hp
      by_cases hnil : o.key.drop s3Pre.length = []
      · rw [if_pos hnil]
        obtain ⟨hfiles, hkeys⟩ := ih acc hclos hinv
        refine ⟨?_, ?_⟩
        · have hcond : ¬ (isFileObj s3Pre o = true) := by simp [isFileObj, hnil]
          rw [hfiles, List.filter_cons, if_neg hcond]
        · intro k
          rw [hkeys k, exists_mem_cons]
          have hPo : ¬ (List.isPrefixOf s3Pre o.key = true ∧
              o.key.drop s3Pre.length ≠ [] ∧
              (o.key.drop s3Pre.length).contains '/' = true ∧
              k = s3Pre ++ childSeg (o.key.drop s3Pre.length)) := by
            rintro ⟨-, hne, -, -⟩
            exact hne hnil
          simp only [hPo, false_or]
      · rw [if_neg hnil]
        by_cases hslash : (o.key.drop s3Pre.length).contains '/' = true
        · rw [if_pos hslash]
          have hmemSlash : '/' ∈ o.key.drop s3Pre.length := by simpa using hslash
          by_cases hlk : (List.lookup ( s3Pre ++ childSeg (o.key.drop s3Pre.length))
              acc.folderMap).isSome = true
          · rw [if_pos hlk]
            obtain ⟨hfiles, hkeys⟩ := ih acc hclos hinv
            refine ⟨?_, ?_⟩
            · have hcond : ¬ (isFileObj s3Pre o = true) := by
                simp [isFileObj, hmemSlash]
              rw [hfiles, List.filter_cons, if_neg hcond]
            · intro k
              rw [hkeys k, exists_mem_cons]
              have hPo : (List.isPrefixOf s3Pre o.key = true ∧
                  o.key.drop s3Pre.length ≠ [] ∧
                  (o.key.drop s3Pre.length).contains '/' = true ∧
                  k = s3Pre ++ childSeg (o.key.drop s3Pre.length)) →
                  k ∈ acc.folderKeys := by
                rintro ⟨-, -, -, rfl⟩
                exact (hinv.2.2.1 _).mp hlk
              constructor
              · rintro (h | h)
                · exact Or.inl h
                · exact Or.inr (Or.inr h)
              · rintro (h | h | h)
                · exact Or.inl h
                · exact Or.inl (hPo h)
                · exact Or.inr h
          · rw [if_neg hlk]
            have hinv2 := ProjInv.insert acc
              ( s3Pre ++ childSeg (o.key.drop s3Pre.length))
              { key := s3Pre ++ childSeg (o.key.drop s3Pre.length),
                name := (if (o.key.drop s3Pre.length).takeWhile (fun c => c != '/') = []
                         then "(empty)".data
                         else (o.key.drop s3Pre.length).takeWhile (fun c => c != '/')),
                kind := "folder", size := "", lastModified := 0,
                icon := "folder", iconColor := "text-amber-500" } hinv hlk rfl rfl
            obtain ⟨hfiles, hkeys⟩ := ih _ hclos hinv2
            refine ⟨?_, ?_⟩
            · have hcond : ¬ (isFileObj s3Pre o = true) := by
                simp [isFileObj, hmemSlash]
              rw [hfiles, List.filter_cons, if_neg hcond]
            · intro k
              rw [hkeys k, exists_mem_cons]
              simp only [List.mem_append, List.mem_singleton]
              constructor
              · rintro ((h | h) | h)
                · exact Or.inl h
                · exact Or.inr (Or.inl ⟨hpre, hnil, hslash, h⟩)
                · exact Or.inr (Or.inr h)
              · rintro (h | ⟨-, -, -, h⟩ | h)
                · exact Or.inl (Or.inl h)
                · exact Or.inl (Or.inr h)
                · exact Or.inr h
        · rw [if_neg hslash]
          have hnoSlash : '/' ∉ o.key.drop s3Pre.length := by simpa using hslash
          have hinv2 := ProjInv.addFile acc (fileEntry s3Pre o) hinv (by rfl)
          obtain ⟨hfiles, hkeys⟩ := ih _ hclos hinv2
          refine ⟨?_, ?_⟩
          · have hcond : isFileObj s3Pre o = true := by
              simp [isFileObj, List.isPrefixOf_iff_prefix.mp hpre, hnil, hnoSlash]
            rw [hfiles, List.filter_cons, if_pos hcond]
            simp
          · intro k
            rw [hkeys k, exists_mem_cons]
            have hPo : ¬ (List.isPrefixOf s3Pre o.key = true ∧
                o.key.drop s3Pre.length ≠ [] ∧
                (o.key.drop s3Pre.length).contains '/' = true ∧
                k = s3Pre ++ childSeg (o.key.drop s3Pre.length)) := by
              rintro ⟨-, -, hc, -⟩
              exact hslash hc
            simp only [hPo, false_or]

/-- Claim C5 (counterexample): the projection can emit two entries for
the same immediate child.  Under prefix `a/`, the distinct keys `a/x`
and `a//x` both project to a file entry named `x` (the empty segment
of `a//x` is swallowed by the leading-slash trim), so the listing
holds two entries for the single child segment `x` — not exactly one
entry per distinct immediate child segment. -/
theorem projection_duplicate_entry_cex :
    (BucketService.ListObjects [⟨"a/x".data, 0, 0⟩, ⟨"a//x".data, 0, 0⟩] "a/".data).map
        (entrySeg "a/".data) = ["x".data, "x".data] ∧
    ¬ ((BucketService.ListObjects [⟨"a/x".data, 0, 0⟩, ⟨"a//x".data, 0, 0⟩]
        "a/".data).map (entrySeg "a/".data)).Nodup := by
  decide

/-- Claim C5 (amended): for a listing of pairwise-distinct keys in
which no key continues with a second slash right after the prefix, the
projection yields exactly one entry per distinct immediate child
segment — the entry segments are duplicate-free and a segment appears
iff some listed key under the prefix (the prefix's own marker, whose
remainder is empty, excluded) has it as its immediate child segment —
with every folder entry placed before every file entry. -/
theorem projection_one_entry_per_child (objs : List SObj) ( s3Pre : GoStr)
    (hnodup : (objs.map SObj.key).Nodup)
    (hclean : ∀ o ∈ objs, s3Pre ≠ [] → List.isPrefixOf s3Pre o.key = true →
      (o.key.drop s3Pre.length).head? ≠ some '/') :
    ((BucketService.ListObjects objs s3Pre).map (entrySeg s3Pre)).Nodup ∧
    (∀ s : GoStr, s ∈ (BucketService.ListObjects objs s3Pre).map (entrySeg s3Pre) ↔
      ∃ o ∈ objs, List.isPrefixOf s3Pre o.key = true ∧ o.key.drop s3Pre.length ≠ [] ∧
        childSeg (o.key.drop s3Pre.length) = s) ∧
    (∃ fs gs, BucketService.ListObjects objs s3Pre = fs ++ gs ∧
      (∀ e ∈ fs, e.kind = "folder") ∧ (∀ e ∈ gs, e.kind = "file")) := by
  obtain ⟨hfilesEq, hkeysIff⟩ :=
    foldl_projStep_content s3Pre objs ⟨[], [], []⟩ hclean ProjInv.base
  obtain ⟨hvals, hkindF, hsome, hnd⟩ :=
    foldl_projStep_inv s3Pre objs ⟨[], [], []⟩ ProjInv.base
  have hEq : BucketService.ListObjects objs s3Pre
      = ((objs.foldl (projStep s3Pre) ⟨[], [], []⟩).folderKeys.insertionSort
          keyLe).filterMap
          (fun k => List.lookup k (objs.foldl (projStep s3Pre) ⟨[], [], []⟩).folderMap)
        ++ (objs.foldl (projStep s3Pre) ⟨[], [], []⟩).files.insertionSort fileLe := rfl
  rw [hEq]
  have hK : ∀ k : GoStr,
      k ∈ (objs.foldl (projStep s3Pre) ⟨[], [], []⟩).folderKeys ↔
      ∃ o ∈ objs, List.isPrefixOf s3Pre o.key = true ∧
        o.key.drop s3Pre.length ≠ [] ∧
        (o.key.drop s3Pre.length).contains '/' = true ∧
        k = s3Pre ++ childSeg (o.key.drop s3Pre.length) := by
    intro k
    rw [hkeysIff k]
    have hbase : k ∈ (ProjAcc.mk [] [] []).folderKeys ↔ False := by
      constructor
      · intro h; exact List.not_mem_nil k h
      · intro h; exact absurd h (by simp)
    rw [hbase, false_or]
  have hF : (objs.foldl (projStep s3Pre) ⟨[], [], []⟩).files
      = (objs.filter (isFileObj s3Pre)).map (fileEntry s3Pre) := by
    rw [hfilesEq]
    rfl
  have hsomeSK : ∀ k ∈ (objs.foldl (projStep s3Pre) ⟨[], [], []⟩).folderKeys.insertionSort
      keyLe, (List.lookup k (objs.foldl (projStep s3Pre) ⟨[], [], []⟩).folderMap).isSome
        = true :=
    fun k hk => (hsome k).mpr ((List.mem_insertionSort keyLe).mp hk)
  obtain ⟨hmapkey, hkindFold⟩ :=
    filterMap_lookup_spec _ hvals _ hsomeSK
  have hsegF : (((objs.foldl (projStep s3Pre) ⟨[], [], []⟩).folderKeys.insertionSort
        keyLe).filterMap
        (fun k => List.lookup k (objs.foldl (projStep s3Pre) ⟨[], [], []⟩).folderMap)).map
        (entrySeg s3Pre)
      = ((objs.foldl (projStep s3Pre) ⟨[], [], []⟩).folderKeys.insertionSort keyLe).map
        (fun k => k.drop s3Pre.length) := by
    have h1 := List.map_congr_left (l := ((objs.foldl (projStep s3Pre)
        ⟨[], [], []⟩).folderKeys.insertionSort keyLe).filterMap
        (fun k => List.lookup k (objs.foldl (projStep s3Pre) ⟨[], [], []⟩).folderMap))
      (f := entrySeg s3Pre)
      (g := (fun k : GoStr => k.drop s3Pre.length) ∘ BucketObject.key)
      (fun e he => by
        rw [entrySeg, if_pos (hkindFold e he)]
        rfl)
    rw [h1, ← List.map_map, hmapkey]
  have hkindFS : ∀ e ∈ (objs.foldl (projStep s3Pre) ⟨[], [], []⟩).files.insertionSort
      fileLe, e.kind = "file" :=
    fun e he => hkindF e ((List.mem_insertionSort fileLe).mp he)
  have hsegS : (((objs.foldl (projStep s3Pre) ⟨[], [], []⟩).files.insertionSort
        fileLe).map (entrySeg s3Pre))
      = ((objs.foldl (projStep s3Pre) ⟨[], [], []⟩).files.insertionSort fileLe).map
          BucketObject.name :=
    List.map_congr_left (fun e he => by
      rw [entrySeg, if_neg (by rw [hkindFS e he]; decide)])
  have hnamesPerm : (((objs.foldl (projStep s3Pre) ⟨[], [], []⟩).files.insertionSort
        fileLe).map BucketObject.name).Perm
      ((objs.filter (isFileObj s3Pre)).map (fun o => o.key.drop s3Pre.length)) := by
    refine ((List.perm_insertionSort fileLe _).map BucketObject.name).trans ?_
    rw [hF, List.map_map]
    exact List.Perm.refl _
  have hKshape : ∀ k ∈ (objs.foldl (projStep s3Pre) ⟨[], [], []⟩).folderKeys,
      ∃ x : GoStr, k = s3Pre ++ x ∧ x.getLast? = some '/' := by
    intro k hk
    obtain ⟨o, -, -, -, hC, hkeq⟩ := (hK k).mp hk
    refine ⟨childSeg (o.key.drop s3Pre.length), hkeq, ?_⟩
    rw [childSeg, if_pos hC]
    rw [List.getLast?_append_of_ne_nil _ (by simp)]
    rfl
  have hprefRem : ∀ o : SObj, isFileObj s3Pre o = true →
      s3Pre ++ o.key.drop s3Pre.length = o.key := by
    intro o hio
    have hA : s3Pre <+: o.key := by
      simp only [isFileObj, Bool.and_eq_true] at hio
      exact List.isPrefixOf_iff_prefix.mp hio.1.1
    obtain ⟨t, ht⟩ := hA
    rw [← ht, List.drop_left]
  have hfileProps : ∀ o : SObj, isFileObj s3Pre o = true →
      o.key.drop s3Pre.length ≠ [] ∧ ¬ (o.key.drop s3Pre.length).contains '/' = true ∧
        List.isPrefixOf s3Pre o.key = true := by
    intro o hio
    simp only [isFileObj, Bool.and_eq_true, bne_iff_ne, Bool.not_eq_true'] at hio
    exact ⟨hio.1.2, by rw [hio.2]; simp, hio.1.1⟩
  refine ⟨?_, ?_, ?_⟩
  · rw [List.map_append, hsegF, hsegS, List.nodup_append]
    refine ⟨?_, ?_, ?_⟩
    · refine List.Nodup.map_on ?_
        (((List.perm_insertionSort keyLe _).nodup_iff).mpr hnd)
      intro x hx y hy hxy
      obtain ⟨xs, hxs, -⟩ := hKshape x ((List.mem_insertionSort keyLe).mp hx)
      obtain ⟨ys, hys, -⟩ := hKshape y ((List.mem_insertionSort keyLe).mp hy)
      rw [hxs, hys] at hxy ⊢
      rw [List.drop_left, List.drop_left] at hxy
      rw [hxy]
    · rw [hnamesPerm.nodup_iff]
      refine List.Nodup.map_on ?_
        ((hnodup.of_map SObj.key).sublist (List.filter_sublist objs))
      intro x hx y hy hxy
      have hkeq : x.key = y.key := by
        rw [← hprefRem x (List.mem_filter.mp hx).2,
          ← hprefRem y (List.mem_filter.mp hy).2, hxy]
      exact List.inj_on_of_nodup_map hnodup
        (List.mem_of_mem_filter hx) (List.mem_of_mem_filter hy) hkeq
    · intro s hsF hsS
      obtain ⟨k, hkSK, hks⟩ := List.mem_map.mp hsF
      obtain ⟨x, hkx, hxl⟩ := hKshape k ((List.mem_insertionSort keyLe).mp hkSK)
      have hsx : s = x := by rw [← hks, hkx, List.drop_left]
      have hslash_in : '/' ∈ s := by
        rw [hsx]
        have hne : x ≠ [] := by rintro rfl; simp at hxl
        have h2 := List.getLast?_eq_getLast x hne
        rw [h2] at hxl
        rw [← Option.some.inj hxl]
        exact List.getLast_mem hne
      rw [hnamesPerm.mem_iff] at hsS
      obtain ⟨o, hoF, hos⟩ := List.mem_map.mp hsS
      have hnos := (hfileProps o (List.mem_filter.mp hoF).2).2.1
      rw [← hos] at hslash_in
      exact hnos (by simpa using hslash_in)
  · intro s
    rw [List.map_append, hsegF, hsegS, List.mem_append]
    constructor
    · rintro (hs | hs)
      · obtain ⟨k, hkSK, hks⟩ := List.mem_map.mp hs
        obtain ⟨o, ho, hA, hB, hC, hkeq⟩ := (hK k).mp
          ((List.mem_insertionSort keyLe).mp hkSK)
        refine ⟨o, ho, hA, hB, ?_⟩
        rw [← hks, hkeq, List.drop_left]
      · rw [hnamesPerm.mem_iff] at hs
        obtain ⟨o, hoF, hos⟩ := List.mem_map.mp hs
        obtain ⟨hB, hC, hA⟩ := hfileProps o (List.mem_filter.mp hoF).2
        refine ⟨o, List.mem_of_mem_filter hoF, hA, hB, ?_⟩
        rw [childSeg, if_neg hC]
        exact hos
    · rintro ⟨o, ho, hA, hB, hCS⟩
      by_cases hC : (o.key.drop s3Pre.length).contains '/' = true
      · left
        refine List.mem_map.mpr ⟨ s3Pre ++ childSeg (o.key.drop s3Pre.length), ?_, ?_⟩
        · exact (List.mem_insertionSort keyLe).mpr
            ((hK _).mpr ⟨o, ho, hA, hB, hC, rfl⟩)
        · rw [List.drop_left]
          exact hCS
      · right
        rw [hnamesPerm.mem_iff]
        refine List.mem_map.mpr ⟨o, ?_, ?_⟩
        · refine List.mem_filter.mpr ⟨ho, ?_⟩
          simp only [isFileObj, Bool.and_eq_true, bne_iff_ne, Bool.not_eq_true']
          exact ⟨⟨hA, hB⟩, by simpa using hC⟩
        · rw [← hCS, childSeg, if_neg hC]
  · exact ⟨_, _, rfl, hkindFold, hkindFS⟩

theorem projection_one_entry_per_child_witness :
    "x/".data ∈ (BucketService.ListObjects
        [⟨"a/x/u".data, 0, 0⟩, ⟨"a/x/v".data, 0, 0⟩, ⟨"a/y".data, 0, 0⟩]
        "a/".data).map (entrySeg "a/".data) :=
  ((projection_one_entry_per_child
      [⟨"a/x/u".data, 0, 0⟩, ⟨"a/x/v".data, 0, 0⟩, ⟨"a/y".data, 0, 0⟩]
      "a/".data (by decide) (by decide)).2.1 "x/".data).mpr
    ⟨⟨"a/x/u".data, 0, 0⟩, by decide, by decide, by decide, by decide⟩

/-- The unit index the scaling loop of `formatByteSize` ends at for a
positive value: the band of powers of 1024 the value falls in, capped
at 4 (TB). -/
def bandIdx (x : ℚ) : Nat :=
  if x < 1024 then 0
  else if x < 1024 ^ 2 then 1
  else if x < 1024 ^ 3 then 2
  else if x < 1024 ^ 4 then 3
  else 4

theorem scaleLoop_stop (fuel : Nat) (f : ℚ) (i : Nat) (h : ¬ (1024 ≤ f ∧ i < 4)) :
    scaleLoop fuel f i = (f, i) := by
  cases fuel with
  | zero => rfl
  | succ n => rw [scaleLoop, if_neg h]

theorem scaleLoop_step (fuel : Nat) (f : ℚ) (i : Nat) (h : 1024 ≤ f) (hi : i < 4) :
    scaleLoop (fuel + 1) f i = scaleLoop fuel (f / 1024) (i + 1) := by
  rw [scaleLoop, if_pos ⟨h, hi⟩]

theorem le_div_pow_iff (x : ℚ) (k : Nat) : 1024 ≤ x / 1024 ^ k ↔ 1024 ^ (k + 1) ≤ x := by
  rw [le_div_iff₀ (by positivity), ← pow_succ']

theorem div_pow_div (x : ℚ) (k : Nat) : x / 1024 ^ k / 1024 = x / 1024 ^ (k + 1) := by
  rw [div_div, ← pow_succ]

theorem scaleLoop_eq_band (x : ℚ) :
    scaleLoop 4 x 0 = (x / 1024 ^ bandIdx x, bandIdx x) := by
  rw [bandIdx]
  split_ifs with h1 h2 h3 h4
  · rw [scaleLoop_stop 4 x 0 (by intro h; linarith [h.1])]
    norm_num
  · rw [scaleLoop_step 3 x 0 (not_lt.mp h1) (by norm_num)]
    rw [show x / 1024 = x / 1024 ^ 1 by rw [pow_one]]
    rw [scaleLoop_stop 3 _ 1 (by
      intro h
      exact absurd ((le_div_pow_iff x 1).mp h.1) (not_le.mpr h2))]
  · rw [scaleLoop_step 3 x 0 (not_lt.mp h1) (by norm_num)]
    rw [show x / 1024 = x / 1024 ^ 1 by rw [pow_one]]
    rw [scaleLoop_step 2 _ 1 ((le_div_pow_iff x 1).mpr (not_lt.mp h2)) (by norm_num),
      div_pow_div]
    rw [scaleLoop_stop 2 _ 2 (by
      intro h
      exact absurd ((le_div_pow_iff x 2).mp h.1) (not_le.mpr h3))]
  · rw [scaleLoop_step 3 x 0 (not_lt.mp h1) (by norm_num)]
    rw [show x / 1024 = x / 1024 ^ 1 by rw [pow_one]]
    rw [scaleLoop_step 2 _ 1 ((le_div_pow_iff x 1).mpr (not_lt.mp h2)) (by norm_num),
      div_pow_div]
    rw [scaleLoop_step 1 _ 2 ((le_div_pow_iff x 2).mpr (not_lt.mp h3)) (by norm_num),
      div_pow_div]
    rw [scaleLoop_stop 1 _ 3 (by
      intro h
      exact absurd ((le_div_pow_iff x 3).mp h.1) (not_le.mpr h4))]
  · rw [scaleLoop_step 3 x 0 (not_lt.mp h1) (by norm_num)]
    rw [show x / 1024 = x / 1024 ^ 1 by rw [pow_one]]
    rw [scaleLoop_step 2 _ 1 ((le_div_pow_iff x 1).mpr (not_lt.mp h2)) (by norm_num),
      div_pow_div]
    rw [scaleLoop_step 1 _ 2 ((le_div_pow_iff x 2).mpr (not_lt.mp h3)) (by norm_num),
      div_pow_div]
    rw [scaleLoop_step 0 _ 3 ((le_div_pow_iff x 3).mpr (not_lt.mp h4)) (by norm_num),
      div_pow_div]
    rw [scaleLoop_stop 0 _ 4 (by intro h; exact absurd h.2 (by norm_num))]

theorem le_roundHalfEven (q : ℚ) : ⌊q⌋ ≤ roundHalfEven q := by
  simp only [roundHalfEven]
  split_ifs <;> omega

theorem roundHalfEven_le (q : ℚ) : roundHalfEven q ≤ ⌊q⌋ + 1 := by
  simp only [roundHalfEven]
  split_ifs <;> omega

theorem roundHalfEven_mono {q r : ℚ} (h : q ≤ r) :
    roundHalfEven q ≤ roundHalfEven r := by
  rcases lt_or_ge ⌊q⌋ ⌊r⌋ with hf | hf
  · calc roundHalfEven q ≤ ⌊q⌋ + 1 := roundHalfEven_le q
      _ ≤ ⌊r⌋ := by omega
      _ ≤ roundHalfEven r := le_roundHalfEven r
  · have hfe : ⌊q⌋ = ⌊r⌋ := le_antisymm (Int.floor_le_floor h) hf
    simp only [roundHalfEven, hfe]
    have hqr : q - (⌊r⌋ : ℚ) ≤ r - (⌊r⌋ : ℚ) := by linarith
    split_ifs <;> first | omega | linarith

theorem bandIdx_mono {x y : ℚ} (h : x ≤ y) : bandIdx x ≤ bandIdx y := by
  rw [bandIdx, bandIdx]
  split_ifs <;> first | omega | linarith

theorem bandIdx_le_four (x : ℚ) : bandIdx x ≤ 4 := by
  rw [bandIdx]
  split_ifs <;> omega

theorem bandIdx_lower {x : ℚ} (h : 1 ≤ bandIdx x) : (1024 : ℚ) ^ bandIdx x ≤ x := by
  rw [bandIdx] at h ⊢
  split_ifs at h ⊢ <;> first | omega | (norm_num; linarith)

theorem bandIdx_upper {x : ℚ} (h : bandIdx x ≤ 3) : x < (1024 : ℚ) ^ (bandIdx x + 1) := by
  rw [bandIdx] at h ⊢
  split_ifs at h ⊢ <;> first | omega | (norm_num; linarith)

theorem div_pow_lt_iff (x : ℚ) (k : Nat) : x / 1024 ^ k < 1024 ↔ x < 1024 ^ (k + 1) := by
  rw [div_lt_iff₀ (by positivity), ← pow_succ']

theorem one_le_div_pow_iff (x : ℚ) (k : Nat) : 1 ≤ x / 1024 ^ k ↔ 1024 ^ k ≤ x := by
  rw [le_div_iff₀ (by positivity), one_mul]

theorem denotedSize_pos_eq (b : Int) (hb : 0 < b) :
    denotedSize b = (roundHalfEven (10 * ((b : ℚ) / 1024 ^ bandIdx (b : ℚ))) : ℚ) / 10
      * 1024 ^ bandIdx (b : ℚ) := by
  simp only [denotedSize]
  rw [if_neg (by omega), scaleLoop_eq_band]

theorem denotedSize_nonneg (b : Int) : 0 ≤ denotedSize b := by
  rcases le_or_lt b 0 with hb | hb
  · simp [denotedSize, hb]
  · rw [denotedSize_pos_eq b hb]
    have hbq : (0 : ℚ) < (b : ℚ) := by exact_mod_cast hb
    have h1 : (0 : ℤ) ≤ roundHalfEven (10 * ((b : ℚ) / 1024 ^ bandIdx (b : ℚ))) := by
      refine le_trans ?_ (le_roundHalfEven _)
      refine Int.floor_nonneg.mpr ?_
      have : (0 : ℚ) ≤ (b : ℚ) / 1024 ^ bandIdx (b : ℚ) := by positivity
      linarith
    have h2 : (0 : ℚ) ≤ (roundHalfEven (10 * ((b : ℚ) / 1024 ^ bandIdx (b : ℚ))) : ℚ) := by
      exact_mod_cast h1
    exact mul_nonneg (div_nonneg h2 (by norm_num)) (by positivity)

theorem denotedSize_mono {a b : Int} (h : a ≤ b) : denotedSize a ≤ denotedSize b := by
  rcases le_or_lt a 0 with ha | ha
  · have h0 : denotedSize a = 0 := by simp [denotedSize, ha]
    rw [h0]
    exact denotedSize_nonneg b
  · have hb : 0 < b := lt_of_lt_of_le ha h
    have haq : (0 : ℚ) < (a : ℚ) := by exact_mod_cast ha
    have hbq : (0 : ℚ) < (b : ℚ) := by exact_mod_cast hb
    have habq : (a : ℚ) ≤ (b : ℚ) := by exact_mod_cast h
    rw [denotedSize_pos_eq a ha, denotedSize_pos_eq b hb]
    have hij : bandIdx (a : ℚ) ≤ bandIdx (b : ℚ) := bandIdx_mono habq
    rcases eq_or_lt_of_le hij with heq | hlt
    · rw [heq]
      have hv : (a : ℚ) / 1024 ^ bandIdx (b : ℚ) ≤ (b : ℚ) / 1024 ^ bandIdx (b : ℚ) := by
        gcongr
      have hr := roundHalfEven_mono
        (q := 10 * ((a : ℚ) / 1024 ^ bandIdx (b : ℚ)))
        (r := 10 * ((b : ℚ) / 1024 ^ bandIdx (b : ℚ))) (by linarith)
      have hrq : ((roundHalfEven (10 * ((a : ℚ) / 1024 ^ bandIdx (b : ℚ)))) : ℚ)
          ≤ ((roundHalfEven (10 * ((b : ℚ) / 1024 ^ bandIdx (b : ℚ)))) : ℚ) := by
        exact_mod_cast hr
      gcongr
    · have hj4 : bandIdx (b : ℚ) ≤ 4 := bandIdx_le_four _
      have hi3 : bandIdx (a : ℚ) ≤ 3 := by omega
      have hva : (a : ℚ) / 1024 ^ bandIdx (a : ℚ) < 1024 :=
        (div_pow_lt_iff _ _).mpr (bandIdx_upper hi3)
      have hRa : roundHalfEven (10 * ((a : ℚ) / 1024 ^ bandIdx (a : ℚ))) ≤ 10240 := by
        have hfl : ⌊10 * ((a : ℚ) / 1024 ^ bandIdx (a : ℚ))⌋ < 10240 :=
          Int.floor_lt.mpr (by push_cast; linarith)
        have h2 := roundHalfEven_le (10 * ((a : ℚ) / 1024 ^ bandIdx (a : ℚ)))
        omega
      have hvb : 1 ≤ (b : ℚ) / 1024 ^ bandIdx (b : ℚ) := by
        rcases Nat.eq_zero_or_pos (bandIdx (b : ℚ)) with hj0 | hj1
        · rw [hj0, pow_zero, div_one]
          have : (1 : ℤ) ≤ b := hb
          exact_mod_cast this
        · exact (one_le_div_pow_iff _ _).mpr (bandIdx_lower hj1)
      have hRb : 10 ≤ roundHalfEven (10 * ((b : ℚ) / 1024 ^ bandIdx (b : ℚ))) := by
        have hfl : (10 : ℤ) ≤ ⌊10 * ((b : ℚ) / 1024 ^ bandIdx (b : ℚ))⌋ :=
          Int.le_floor.mpr (by push_cast; linarith)
        have h2 := le_roundHalfEven (10 * ((b : ℚ) / 1024 ^ bandIdx (b : ℚ)))
        omega
      have hcast_a : ((roundHalfEven (10 * ((a : ℚ) / 1024 ^ bandIdx (a : ℚ)))) : ℚ)
          ≤ 10240 := by exact_mod_cast hRa
      have hcast_b : (10 : ℚ)
          ≤ ((roundHalfEven (10 * ((b : ℚ) / 1024 ^ bandIdx (b : ℚ)))) : ℚ) := by
        exact_mod_cast hRb
      calc ((roundHalfEven (10 * ((a : ℚ) / 1024 ^ bandIdx (a : ℚ)))) : ℚ) / 10
            * 1024 ^ bandIdx (a : ℚ)
          ≤ 10240 / 10 * 1024 ^ bandIdx (a : ℚ) := by gcongr
        _ = 1024 ^ (bandIdx (a : ℚ) + 1) := by rw [pow_succ']; norm_num
        _ ≤ 1024 ^ bandIdx (b : ℚ) := by
            exact pow_le_pow_right₀ (by norm_num) (by omega)
        _ ≤ ((roundHalfEven (10 * ((b : ℚ) / 1024 ^ bandIdx (b : ℚ)))) : ℚ) / 10
            * 1024 ^ bandIdx (b : ℚ) := by
            nlinarith [pow_pos (show (0 : ℚ) < 1024 by norm_num) (bandIdx (b : ℚ))]

/-- Claim C9: `formatByteSize 0 = "0 B"`; `formatByteSize 1536 =
"1.5 KB"` under the held-constant one-decimal convention of repeated
division by 1024 with unit suffixes B/KB/MB/GB/TB; and the function is
monotonic in its input: for byte counts `a ≤ b`, the size denoted by
the formatted string of `a` — its printed one-decimal value times its
unit's multiplier, computed by `denotedSize` from the same scaled
value and unit index the string is rendered from — is at most the size
denoted by the formatted string of `b`. -/
theorem formatByteSize_spec :
    formatByteSize 0 = "0 B" ∧
    formatByteSize 1536 = "1.5 KB" ∧
    ∀ a b : Int, a ≤ b → denotedSize a ≤ denotedSize b := by
  refine ⟨rfl, ?_, fun a b h => denotedSize_mono h⟩
  have hband : bandIdx ((1536 : Int) : ℚ) = 1 := by
    rw [bandIdx]
    norm_num
  have hfloor : ⌊(15 : ℚ)⌋ = 15 := by
    rw [show (15 : ℚ) = ((15 : ℤ) : ℚ) by norm_num, Int.floor_intCast]
  have hrhe : roundHalfEven 15 = 15 := by
    simp only [roundHalfEven, hfloor]
    rw [if_pos (by push_cast; norm_num)]
  have hv : (10 : ℚ) * (((1536 : Int) : ℚ) / 1024 ^ (1 : Nat)) = 15 := by
    push_cast
    norm_num
  simp only [formatByteSize]
  rw [if_neg (by omega), scaleLoop_eq_band, hband, hv, hrhe]
  rfl

theorem formatByteSize_spec_witness :
    denotedSize 1000 ≤ denotedSize 1536 :=
  formatByteSize_spec.2.2 1000 1536 (by decide)
